import Mathlib

/-!
Shallow embedding of `cache-up` (src/src/lib.rs), an in-process memoization
cache with per-entry refresh policies.

Modelling choices, all driven by the Rust source:

* Wall-clock timestamps (`DateTime<Utc>`) are modelled as integers measured in
  seconds, so `Duration::seconds(d)` is the integer `d` and
  `now.signed_duration_since(updated_at)` is `now - updated_at`.
* The Rust code reads `Utc::now()` at two kinds of places inside one call:
  inside a policy closure (the built-in `max_age` reads the clock at
  evaluation time) and right after the producer `f()` returns (both on the
  miss path and on the refresh path).  A call to the store is therefore
  parametrised by `t0`, the clock value while policies are evaluated, and by
  `fdur ≥ 0`, the running time of the producer, so the clock read just after
  the producer finishes is `t0 + fdur`.  This keeps the source's ordering of
  effects observable: `created_at`/`updated_at` are post-producer clock reads.
* A Rust policy is `Box<dyn Fn(&K, &V, &CacheContext<K, V>) -> bool>`; a
  policy closure may also read the clock itself.  A context literally contains
  its policy list, which would be a negative occurrence in Lean, so policies
  receive the context's two timestamps (`CtxTimes`, everything a policy of the
  source ever reads from the context) together with the evaluation-time clock.
* The `HashMap` store is modelled extensionally as a function
  `K → Option (V × CacheContext K V)`: one entry per key, lookup by equality.
* The producer `F: Fn() -> V` is a function `Unit → V`; each call of the store
  additionally returns how many times it invoked the producer, which is the
  observable the spec's "producer is invoked exactly once / not invoked"
  sentences are about.
-/

namespace CacheUpSpec

/-- The two timestamps of an entry's context, the part of `CacheContext` that
policies read. -/
structure CtxTimes where
  created_at : Int
  updated_at : Int

/-- A refresh policy: the Rust `Box<dyn Fn(&K, &V, &CacheContext<K, V>) -> bool>`,
with the context replaced by its timestamps and the evaluation-time wall clock
passed explicitly (Rust closures read `Utc::now()` themselves). -/
abbrev Policy (K V : Type) : Type := K → V → CtxTimes → Int → Bool

/-- `CacheOption`: the ordered list of policies supplied with a call. -/
structure CacheOption (K V : Type) where
  policies : List (Policy K V)

/-- `CacheOption::new`: the empty policy list. -/
def CacheOption.new (K V : Type) : CacheOption K V :=
  ⟨[]⟩

/-- `CacheOption::add_policy`: append one policy. -/
def CacheOption.add_policy {K V : Type} (o : CacheOption K V) (p : Policy K V) :
    CacheOption K V :=
  ⟨o.policies ++ [p]⟩

/-- `CacheOption::_max_age`, translated literally from the source:
`diff_updated < max_age` where `diff_updated = now - updated_at`. -/
def CacheOption.maxAgeCore (max_age now : Int) (t : CtxTimes) : Bool :=
  decide (now - t.updated_at < max_age)

/-- `CacheOption::max_age`: append the built-in age policy, whose closure reads
the clock at evaluation time and calls `_max_age`. -/
def CacheOption.max_age {K V : Type} (o : CacheOption K V) (d : Int) :
    CacheOption K V :=
  o.add_policy (fun _ _ t now => CacheOption.maxAgeCore d now t)

/-- What the spec says `max_age` means: stale iff `now - updated_at ≥ D`.
Used only to state the divergence from the code. -/
def CacheOption.maxAgeSpec (max_age now : Int) (t : CtxTimes) : Bool :=
  decide (max_age ≤ now - t.updated_at)

/-- `CacheContext`: per-entry metadata. -/
structure CacheContext (K V : Type) where
  created_at : Int
  updated_at : Int
  option : CacheOption K V

/-- The timestamps a policy gets to see. -/
def CacheContext.times {K V : Type} (c : CacheContext K V) : CtxTimes :=
  ⟨c.created_at, c.updated_at⟩

/-- `CacheUp`: the store, a map from keys to entries. -/
structure CacheUp (K V : Type) where
  store : K → Option (V × CacheContext K V)

/-- `CacheUp::new`: the empty store. -/
def CacheUp.new (K V : Type) : CacheUp K V :=
  ⟨fun _ => none⟩

/-- The `and_modify` loop of `execute_with_option`: walk the bound policies in
order; at the first one returning true, invoke the producer once and rebuild
the entry with `updated_at` set to the post-producer clock `tdone`; if none
fires, report `none` (entry untouched). -/
def runPolicies {K V : Type} (key : K) (f : Unit → V) (now tdone : Int) (v : V)
    (ctx : CacheContext K V) : List (Policy K V) → Option (V × CacheContext K V)
  | [] => none
  | p :: ps =>
    if p key v ctx.times now then some (f (), { ctx with updated_at := tdone })
    else runPolicies key f now tdone v ctx ps

/-- `CacheUp::execute_with_option`.  `t0` is the wall clock during policy
evaluation, `fdur` the producer's running time (so `Utc::now()` right after
`f()` reads `t0 + fdur`).  Returns the entry the Rust reference points at, the
new store, and the number of producer invocations. -/
def CacheUp.execute_with_option {K V : Type} [DecidableEq K] (c : CacheUp K V)
    (key : K) (f : Unit → V) (fdur : Int) (opt : CacheOption K V) (t0 : Int) :
    (V × CacheContext K V) × CacheUp K V × Nat :=
  match c.store key with
  | some (v, ctx) =>
    match runPolicies key f t0 (t0 + fdur) v ctx ctx.option.policies with
    | some entry =>
      (entry, ⟨fun k => if k = key then some entry else c.store k⟩, 1)
    | none => ((v, ctx), c, 0)
  | none =>
    let result := f ()
    let created_at := t0 + fdur
    let cache_context : CacheContext K V := ⟨created_at, created_at, opt⟩
    ((result, cache_context),
     ⟨fun k => if k = key then some (result, cache_context) else c.store k⟩, 1)

/-- `CacheUp::execute`: delegate with an empty `CacheOption`. -/
def CacheUp.execute {K V : Type} [DecidableEq K] (c : CacheUp K V) (key : K)
    (f : Unit → V) (fdur t0 : Int) :
    (V × CacheContext K V) × CacheUp K V × Nat :=
  c.execute_with_option key f fdur (CacheOption.new K V) t0

section Lemmas

variable {K V : Type}

/-- Unfolding: `runPolicies` on the empty list. -/
theorem runPolicies_nil (key : K) (f : Unit → V) (now tdone : Int) (v : V)
    (ctx : CacheContext K V) :
    runPolicies key f now tdone v ctx [] = none :=
  rfl

/-- Unfolding: `runPolicies` on a cons. -/
theorem runPolicies_cons (key : K) (f : Unit → V) (now tdone : Int) (v : V)
    (ctx : CacheContext K V) (p : Policy K V) (ps : List (Policy K V)) :
    runPolicies key f now tdone v ctx (p :: ps) =
      if p key v ctx.times now then some (f (), { ctx with updated_at := tdone })
      else runPolicies key f now tdone v ctx ps :=
  rfl

/-- If every policy in the list evaluates false, the loop fires nothing. -/
theorem runPolicies_all_false (key : K) (f : Unit → V) (now tdone : Int) (v : V)
    (ctx : CacheContext K V) (ps : List (Policy K V))
    (h : ∀ q ∈ ps, q key v ctx.times now = false) :
    runPolicies key f now tdone v ctx ps = none := by
  induction ps with
  | nil => rfl
  | cons p ps ih =>
    rw [runPolicies_cons, h p (List.mem_cons_self p ps)]
    simpa using ih fun q hq => h q (List.mem_cons_of_mem p hq)

/-- A false prefix of the policy list is skipped over. -/
theorem runPolicies_append_false (key : K) (f : Unit → V) (now tdone : Int)
    (v : V) (ctx : CacheContext K V) (ps₁ ps₂ : List (Policy K V))
    (h : ∀ q ∈ ps₁, q key v ctx.times now = false) :
    runPolicies key f now tdone v ctx (ps₁ ++ ps₂) =
      runPolicies key f now tdone v ctx ps₂ := by
  induction ps₁ with
  | nil => rfl
  | cons p ps ih =>
    rw [List.cons_append, runPolicies_cons, h p (List.mem_cons_self p ps)]
    simpa using ih fun q hq => h q (List.mem_cons_of_mem p hq)

/-- Whenever the loop fires, the new entry is the producer's fresh value with
only `updated_at` rewritten to the post-producer clock. -/
theorem runPolicies_some_shape (key : K) (f : Unit → V) (now tdone : Int)
    (v : V) (ctx : CacheContext K V) (ps : List (Policy K V))
    (entry : V × CacheContext K V)
    (h : runPolicies key f now tdone v ctx ps = some entry) :
    entry = (f (), { ctx with updated_at := tdone }) := by
  induction ps with
  | nil => simp [runPolicies] at h
  | cons p ps ih =>
    rw [runPolicies_cons] at h
    by_cases hp : p key v ctx.times now
    · rw [if_pos hp] at h
      exact (Option.some_inj.mp h).symm
    · rw [if_neg hp] at h
      exact ih h

/-- Unfolding: the hit path of `execute_with_option`. -/
theorem execute_with_option_hit [DecidableEq K] (c : CacheUp K V) (key : K) (f : Unit → V)
    (fdur : Int) (opt : CacheOption K V) (t0 : Int) (v : V)
    (ctx : CacheContext K V) (hkey : c.store key = some (v, ctx)) :
    c.execute_with_option key f fdur opt t0 =
      match runPolicies key f t0 (t0 + fdur) v ctx ctx.option.policies with
      | some entry =>
        (entry, ⟨fun k => if k = key then some entry else c.store k⟩, 1)
      | none => ((v, ctx), c, 0) := by
  unfold CacheUp.execute_with_option
  rw [hkey]

/-- Unfolding: the miss path of `execute_with_option`. -/
theorem execute_with_option_miss [DecidableEq K] (c : CacheUp K V) (key : K) (f : Unit → V)
    (fdur : Int) (opt : CacheOption K V) (t0 : Int)
    (hkey : c.store key = none) :
    c.execute_with_option key f fdur opt t0 =
      ((f (), ⟨t0 + fdur, t0 + fdur, opt⟩),
       ⟨fun k => if k = key then some (f (), ⟨t0 + fdur, t0 + fdur, opt⟩)
                 else c.store k⟩, 1) := by
  unfold CacheUp.execute_with_option
  rw [hkey]

end Lemmas

/-! Concrete fixtures used by witnesses and counterexamples. -/

/-- A policy that is always stale (the tests' closure returning true). -/
def polTrue : Policy Nat Nat := fun _ _ _ _ => true

/-- A policy that is always fresh (the tests' closure returning false). -/
def polFalse : Policy Nat Nat := fun _ _ _ _ => false

/-- Producer returning 4. -/
def prodFour : Unit → Nat := fun _ => 4

/-- Producer returning 10. -/
def prodTen : Unit → Nat := fun _ => 10

/-- Producer returning 7. -/
def prodSeven : Unit → Nat := fun _ => 7

/-- A context created at time 0 whose bound policies are the always-false one
followed by the always-true one. -/
def ctxFT : CacheContext Nat Nat := ⟨0, 0, ⟨[polFalse, polTrue]⟩⟩

/-- A context created at time 0 whose only bound policy is always-false. -/
def ctxF : CacheContext Nat Nat := ⟨0, 0, ⟨[polFalse]⟩⟩

/-- A store holding the single entry `1 ↦ (4, ctxFT)`. -/
def storeFT : CacheUp Nat Nat :=
  ⟨fun k => if k = 1 then some (4, ctxFT) else none⟩

/-- A store holding the single entry `1 ↦ (4, ctxF)`. -/
def storeF : CacheUp Nat Nat :=
  ⟨fun k => if k = 1 then some (4, ctxF) else none⟩

/-- Create an entry for key 1 at time 0 with value 4 and a single `max_age d`
policy, then access key 1 again at time 5 with a producer returning 10; report
the value the second access returns and how often it invoked its producer. -/
def maxAgeRun (d : Int) : Nat × Nat :=
  let r1 := (CacheUp.new Nat Nat).execute_with_option 1 prodFour 0
    ((CacheOption.new Nat Nat).max_age d) 0
  let r2 := r1.2.1.execute 1 prodTen 0 5
  (r2.1.1, r2.2.2)

/-- C1: the spec says the `max_age(D)` policy is stale exactly when
`now - updated_at ≥ D`; the code's `_max_age` computes `diff_updated < max_age`,
the exact inversion.  At `D = 5`, `updated_at = 0`: with `now = 10` the age is
`10 ≥ 5` yet the code's policy answers false (fresh), and with `now = 2` the
age is `2 < 5` yet it answers true (stale).  The policy list built by
`max_age 5` evaluates accordingly, disagreeing with the spec's predicate at
both inputs. -/
theorem max_age_inverted :
    CacheOption.maxAgeCore 5 10 ⟨0, 0⟩ = false
    ∧ CacheOption.maxAgeSpec 5 10 ⟨0, 0⟩ = true
    ∧ CacheOption.maxAgeCore 5 2 ⟨0, 0⟩ = true
    ∧ CacheOption.maxAgeSpec 5 2 ⟨0, 0⟩ = false
    ∧ (((CacheOption.new Nat Nat).max_age 5).policies.map
        fun p => p 0 0 ⟨0, 0⟩ 10) = [false]
    ∧ (((CacheOption.new Nat Nat).max_age 5).policies.map
        fun p => p 0 0 ⟨0, 0⟩ 2) = [true] := by
  decide

/-- C2: the spec's age boundary says `max_age(0)` makes the very next access
refresh, and `max_age(D)` for large `D` never refreshes while
`now - updated_at < D`.  The code does the opposite.  In the first run the
entry for key 1 is created at time 0 with `max_age 0` and value 4; the access
at time 5 (age `5 ≥ 0`) returns the old value 4 with zero producer calls — no
refresh.  In the second run the entry is created with `max_age 1000000`; the
access at time 5 (age `5 < 1000000`) returns the new producer's 10 with one
producer call — a refresh. -/
theorem max_age_boundary_inverted :
    (maxAgeRun 0).1 = 4 ∧ (maxAgeRun 0).2 = 0
    ∧ (maxAgeRun 1000000).1 = 10 ∧ (maxAgeRun 1000000).2 = 1 := by
  decide

/-- C9: `execute` is exactly `execute_with_option` with `CacheOption::new()`,
for every store, key, producer, producer duration and clock value: same
returned pair, same resulting store, same producer-invocation count. -/
theorem execute_eq_execute_with_new_option {K V : Type} [DecidableEq K]
    (c : CacheUp K V) (key : K) (f : Unit → V) (fdur t0 : Int) :
    c.execute key f fdur t0 =
      c.execute_with_option key f fdur (CacheOption.new K V) t0 :=
  rfl

/-- C3: on a hit, the originally bound policies are evaluated in list order
against the key, the stored value and the stored context.  If the list splits
as `ps₁ ++ p :: ps₂` with every policy of `ps₁` false and `p` true at that
triple, the producer runs exactly once, its result replaces the value,
`updated_at` becomes the post-producer clock, and the policies of `ps₂` are
never consulted (they are arbitrary here and absent from the outcome's
conditions).  If every bound policy is false — in particular when the list is
empty — the entry and store are returned unchanged and the producer is not
invoked. -/
theorem hit_path_spec {K V : Type} [DecidableEq K] (c : CacheUp K V) (key : K)
    (f : Unit → V) (fdur : Int) (opt : CacheOption K V) (t0 : Int) (v : V)
    (ctx : CacheContext K V) (hkey : c.store key = some (v, ctx)) :
    (∀ ps₁ p ps₂, ctx.option.policies = ps₁ ++ p :: ps₂ →
      (∀ q ∈ ps₁, q key v ctx.times t0 = false) →
      p key v ctx.times t0 = true →
      c.execute_with_option key f fdur opt t0 =
        ((f (), { ctx with updated_at := t0 + fdur }),
         ⟨fun k => if k = key
                   then some (f (), { ctx with updated_at := t0 + fdur })
                   else c.store k⟩, 1))
    ∧ ((∀ q ∈ ctx.option.policies, q key v ctx.times t0 = false) →
      c.execute_with_option key f fdur opt t0 = ((v, ctx), c, 0)) := by
  constructor
  · intro ps₁ p ps₂ hps hfalse htrue
    rw [execute_with_option_hit c key f fdur opt t0 v ctx hkey, hps,
      runPolicies_append_false key f t0 (t0 + fdur) v ctx ps₁ (p :: ps₂) hfalse,
      runPolicies_cons, htrue]
    simp
  · intro hall
    rw [execute_with_option_hit c key f fdur opt t0 v ctx hkey,
      runPolicies_all_false key f t0 (t0 + fdur) v ctx ctx.option.policies hall]

/-- C3 witness: on `storeFT` (entry `1 ↦ (4, ctxFT)`, policies
`[polFalse, polTrue]`) an access at time 5 with producer `prodTen` refreshes to
10 with `updated_at = 5 + 0`; on `storeF` (only `polFalse` bound) the same
access returns the entry and store unchanged with zero producer calls. -/
theorem hit_path_spec_witness :
    (storeFT.execute_with_option 1 prodTen 0 (CacheOption.new Nat Nat) 5).1
        = (prodTen (), { ctxFT with updated_at := 5 + 0 })
    ∧ storeF.execute_with_option 1 prodTen 0 (CacheOption.new Nat Nat) 5
        = ((4, ctxF), storeF, 0) :=
  ⟨congrArg Prod.fst
    ((hit_path_spec storeFT 1 prodTen 0 (CacheOption.new Nat Nat) 5 4 ctxFT
        rfl).1 [polFalse] polTrue [] rfl (by simp [polFalse]) rfl),
   (hit_path_spec storeF 1 prodTen 0 (CacheOption.new Nat Nat) 5 4 ctxF
        rfl).2 (by simp [ctxF, polFalse])⟩

/-- C4: on a miss, the producer runs exactly once, the new entry holds its
result with `created_at = updated_at =` the clock read after the producer
finished and with exactly the supplied policy list, the entry is inserted
under the key (other keys untouched), and that stored pair is returned. -/
theorem miss_path_spec {K V : Type} [DecidableEq K] (c : CacheUp K V) (key : K)
    (f : Unit → V) (fdur : Int) (opt : CacheOption K V) (t0 : Int)
    (hkey : c.store key = none) :
    c.execute_with_option key f fdur opt t0 =
      ((f (), ⟨t0 + fdur, t0 + fdur, opt⟩),
       ⟨fun k => if k = key then some (f (), ⟨t0 + fdur, t0 + fdur, opt⟩)
                 else c.store k⟩, 1) :=
  execute_with_option_miss c key f fdur opt t0 hkey

/-- C4 witness: a first access on the empty store with key 1, producer
`prodFour`, policies `[polTrue]`, clock 10 and producer duration 2 returns the
pair `(4, ⟨12, 12, [polTrue]⟩)`, stores it under key 1, and invokes the
producer once. -/
theorem miss_path_spec_witness :
    ((CacheUp.new Nat Nat).execute_with_option 1 prodFour 2 ⟨[polTrue]⟩ 10).1
        = (prodFour (), ⟨10 + 2, 10 + 2, ⟨[polTrue]⟩⟩)
    ∧ ((CacheUp.new Nat Nat).execute_with_option 1 prodFour 2 ⟨[polTrue]⟩
        10).2.1.store 1 = some (prodFour (), ⟨10 + 2, 10 + 2, ⟨[polTrue]⟩⟩)
    ∧ ((CacheUp.new Nat Nat).execute_with_option 1 prodFour 2 ⟨[polTrue]⟩
        10).2.2 = 1 :=
  ⟨congrArg Prod.fst
    (miss_path_spec (CacheUp.new Nat Nat) 1 prodFour 2 ⟨[polTrue]⟩ 10 rfl),
   congrArg (fun r => r.2.1.store 1)
    (miss_path_spec (CacheUp.new Nat Nat) 1 prodFour 2 ⟨[polTrue]⟩ 10 rfl),
   congrArg (fun r => r.2.2)
    (miss_path_spec (CacheUp.new Nat Nat) 1 prodFour 2 ⟨[polTrue]⟩ 10 rfl)⟩

/-- C10: on the miss path the producer runs before the wall clock is read, so
with access-begin clock `t0` and a producer taking `fdur ≠ 0` time,
`created_at` and `updated_at` of the new entry equal the producer-completion
time `t0 + fdur` and differ from the access-begin time `t0`. -/
theorem miss_created_at_after_producer {K V : Type} [DecidableEq K]
    (c : CacheUp K V) (key : K) (f : Unit → V) (fdur : Int)
    (opt : CacheOption K V) (t0 : Int) (hkey : c.store key = none)
    (hfd : fdur ≠ 0) :
    (c.execute_with_option key f fdur opt t0).1.2.created_at = t0 + fdur
    ∧ (c.execute_with_option key f fdur opt t0).1.2.updated_at = t0 + fdur
    ∧ (c.execute_with_option key f fdur opt t0).1.2.created_at ≠ t0 := by
  rw [execute_with_option_miss c key f fdur opt t0 hkey]
  refine ⟨rfl, rfl, ?_⟩
  simpa using hfd

/-- C10 witness: starting the access at clock 10 with a producer that takes 2
time units, the created entry carries timestamp `10 + 2`, not 10. -/
theorem miss_created_at_after_producer_witness :
    ((CacheUp.new Nat Nat).execute_with_option 1 prodFour 2
        (CacheOption.new Nat Nat) 10).1.2.created_at = 10 + 2
    ∧ ((CacheUp.new Nat Nat).execute_with_option 1 prodFour 2
        (CacheOption.new Nat Nat) 10).1.2.updated_at = 10 + 2
    ∧ ((CacheUp.new Nat Nat).execute_with_option 1 prodFour 2
        (CacheOption.new Nat Nat) 10).1.2.created_at ≠ 10 :=
  miss_created_at_after_producer (CacheUp.new Nat Nat) 1 prodFour 2
    (CacheOption.new Nat Nat) 10 rfl (by decide)

/-- C5: an access on an existing key leaves the entry's policy list exactly as
bound at creation, whatever policy set `opt2` the call supplies — including
when a policy fires and the value is refreshed. -/
theorem policy_list_fixed {K V : Type} [DecidableEq K] (c : CacheUp K V)
    (key : K) (f : Unit → V) (fdur : Int) (opt2 : CacheOption K V) (t0 : Int)
    (v : V) (ctx : CacheContext K V) (hkey : c.store key = some (v, ctx))
    (v2 : V) (ctx2 : CacheContext K V)
    (h2 : (c.execute_with_option key f fdur opt2 t0).2.1.store key
        = some (v2, ctx2)) :
    ctx2.option = ctx.option := by
  rw [execute_with_option_hit c key f fdur opt2 t0 v ctx hkey] at h2
  cases hr : runPolicies key f t0 (t0 + fdur) v ctx ctx.option.policies with
  | some entry =>
    rw [hr] at h2
    simp only [if_pos rfl] at h2
    have hshape := runPolicies_some_shape key f t0 (t0 + fdur) v ctx
      ctx.option.policies entry hr
    rw [hshape] at h2
    have hctx : ({ ctx with updated_at := t0 + fdur } : CacheContext K V)
        = ctx2 := congrArg Prod.snd (Option.some_inj.mp h2)
    rw [← hctx]
  | none =>
    rw [hr] at h2
    simp only [] at h2
    rw [hkey] at h2
    have : ctx = ctx2 := ((Prod.mk.injEq _ _ _ _).mp
      (Option.some_inj.mp h2)).2
    rw [this]

/-- C5 witness: on `storeFT` (bound policies `[polFalse, polTrue]`) an access
supplying the different policy set `[polFalse]` refreshes the entry, and the
refreshed entry's policy list is still `ctxFT`'s original one. -/
theorem policy_list_fixed_witness :
    ({ ctxFT with updated_at := 3 + 0 } : CacheContext Nat Nat).option
      = ctxFT.option :=
  policy_list_fixed storeFT 1 prodSeven 0 ⟨[polFalse]⟩ 3 4 ctxFT rfl
    (prodSeven ()) { ctxFT with updated_at := 3 + 0 } rfl

/-- C6: with no policies ever attached (key initially absent, both calls made
through `execute`, which binds the empty policy list), accessing a key with
producer `P1` and then with `P2` returns `P1`'s value both times and the
second call never invokes its producer. -/
theorem no_policy_idempotent {K V : Type} [DecidableEq K] (c : CacheUp K V)
    (key : K) (P1 P2 : Unit → V) (d1 t1 d2 t2 : Int)
    (hkey : c.store key = none) :
    (c.execute key P1 d1 t1).1.1 = P1 ()
    ∧ ((c.execute key P1 d1 t1).2.1.execute key P2 d2 t2).1.1 = P1 ()
    ∧ ((c.execute key P1 d1 t1).2.1.execute key P2 d2 t2).2.2 = 0 := by
  unfold CacheUp.execute
  rw [execute_with_option_miss c key P1 d1 (CacheOption.new K V) t1 hkey]
  have hk1 : (⟨fun k => if k = key
      then some (P1 (), ⟨t1 + d1, t1 + d1, CacheOption.new K V⟩)
      else c.store k⟩ : CacheUp K V).store key
        = some (P1 (), ⟨t1 + d1, t1 + d1, CacheOption.new K V⟩) := by
    simp
  rw [execute_with_option_hit _ key P2 d2 (CacheOption.new K V) t2 (P1 ())
      ⟨t1 + d1, t1 + d1, CacheOption.new K V⟩ hk1]
  exact ⟨rfl, rfl, rfl⟩

/-- C6 witness: on the empty store, `execute 1 prodFour` then
`execute 1 prodTen` both return 4 and the second call makes zero producer
invocations. -/
theorem no_policy_idempotent_witness :
    ((CacheUp.new Nat Nat).execute 1 prodFour 0 0).1.1 = prodFour ()
    ∧ (((CacheUp.new Nat Nat).execute 1 prodFour 0 0).2.1.execute
        1 prodTen 0 5).1.1 = prodFour ()
    ∧ (((CacheUp.new Nat Nat).execute 1 prodFour 0 0).2.1.execute
        1 prodTen 0 5).2.2 = 0 :=
  no_policy_idempotent (CacheUp.new Nat Nat) 1 prodFour prodTen 0 0 0 5 rfl

/-- C7: one access touches at most its own key — every other key's entry is
bit-for-bit the one from before the call — and no key that had an entry is
ever left without one. -/
theorem frame_effect {K V : Type} [DecidableEq K] (c : CacheUp K V) (key : K)
    (f : Unit → V) (fdur : Int) (opt : CacheOption K V) (t0 : Int) :
    (∀ k2, k2 ≠ key →
      (c.execute_with_option key f fdur opt t0).2.1.store k2 = c.store k2)
    ∧ ∀ k2 e, c.store k2 = some e →
        ∃ e2, (c.execute_with_option key f fdur opt t0).2.1.store k2
          = some e2 := by
  cases hc : c.store key with
  | none =>
    rw [execute_with_option_miss c key f fdur opt t0 hc]
    constructor
    · intro k2 hne
      simp [hne]
    · intro k2 e he
      by_cases hk : k2 = key
      · subst hk
        exact ⟨(f (), ⟨t0 + fdur, t0 + fdur, opt⟩), by simp⟩
      · exact ⟨e, by simp [hk, he]⟩
  | some item =>
    obtain ⟨v, ctx⟩ := item
    rw [execute_with_option_hit c key f fdur opt t0 v ctx hc]
    cases hr : runPolicies key f t0 (t0 + fdur) v ctx ctx.option.policies with
    | some entry =>
      constructor
      · intro k2 hne
        simp [hne]
      · intro k2 e he
        by_cases hk : k2 = key
        · subst hk
          exact ⟨entry, by simp⟩
        · exact ⟨e, by simp [hk, he]⟩
    | none =>
      exact ⟨fun k2 _ => rfl, fun k2 e he => ⟨e, he⟩⟩

/-- C7 witness: an access on key 1 of `storeFT` leaves the (absent) entry of
key 2 untouched and keeps an entry present under key 1. -/
theorem frame_effect_witness :
    (storeFT.execute_with_option 1 prodTen 0 (CacheOption.new Nat Nat)
        5).2.1.store 2 = storeFT.store 2
    ∧ ∃ e2, (storeFT.execute_with_option 1 prodTen 0 (CacheOption.new Nat Nat)
        5).2.1.store 1 = some e2 :=
  ⟨(frame_effect storeFT 1 prodTen 0 (CacheOption.new Nat Nat) 5).1 2
      (by decide),
   (frame_effect storeFT 1 prodTen 0 (CacheOption.new Nat Nat) 5).2 1
      (4, ctxFT) rfl⟩

/-- Wellformedness of a store relative to the current clock `t`: every entry
satisfies `created_at ≤ updated_at` and carries no timestamp from the future.
The second half is what monotone wall-clock time guarantees between calls. -/
def timesOk {K V : Type} (c : CacheUp K V) (t : Int) : Prop :=
  ∀ k v ctx, c.store k = some (v, ctx) →
    ctx.created_at ≤ ctx.updated_at ∧ ctx.updated_at ≤ t

/-- C8: `created_at ≤ updated_at` holds for every entry reachable by any
sequence of accesses, and `created_at` never changes after creation.  Stated
inductively: the empty store is wellformed at every clock; one access with a
nonnegative producer duration preserves wellformedness as the clock advances
to `t0 + fdur`; and any entry surviving the access keeps its `created_at`
(whether or not a policy fired and advanced `updated_at`). -/
theorem timestamps_invariant {K V : Type} [DecidableEq K] (c : CacheUp K V)
    (key : K) (f : Unit → V) (fdur : Int) (opt : CacheOption K V) (t0 : Int)
    (h : timesOk c t0) (hd : 0 ≤ fdur) :
    timesOk (c.execute_with_option key f fdur opt t0).2.1 (t0 + fdur)
    ∧ (∀ k v ctx v2 ctx2, c.store k = some (v, ctx) →
        (c.execute_with_option key f fdur opt t0).2.1.store k = some (v2, ctx2) →
        ctx2.created_at = ctx.created_at)
    ∧ ∀ t : Int, timesOk (CacheUp.new K V) t := by
  have ht0 : t0 ≤ t0 + fdur := by linarith
  refine ⟨?_, ?_, ?_⟩
  · intro k v2 ctx2 hk2
    cases hc : c.store key with
    | none =>
      rw [execute_with_option_miss c key f fdur opt t0 hc] at hk2
      by_cases hk : k = key
      · subst hk
        simp only [if_pos rfl] at hk2
        obtain ⟨-, hctx⟩ := Prod.mk.injEq .. |>.mp (Option.some_inj.mp hk2)
        rw [← hctx]
        exact ⟨le_refl _, le_refl _⟩
      · simp only [if_neg hk] at hk2
        obtain ⟨h1, h2⟩ := h k v2 ctx2 hk2
        exact ⟨h1, le_trans h2 ht0⟩
    | some item =>
      obtain ⟨v, ctx⟩ := item
      obtain ⟨hca, hua⟩ := h key v ctx hc
      rw [execute_with_option_hit c key f fdur opt t0 v ctx hc] at hk2
      cases hr : runPolicies key f t0 (t0 + fdur) v ctx ctx.option.policies with
      | some entry =>
        rw [hr] at hk2
        have hshape := runPolicies_some_shape key f t0 (t0 + fdur) v ctx
          ctx.option.policies entry hr
        by_cases hk : k = key
        · subst hk
          simp only [if_pos rfl, hshape] at hk2
          obtain ⟨-, hctx⟩ := Prod.mk.injEq .. |>.mp (Option.some_inj.mp hk2)
          rw [← hctx]
          exact ⟨le_trans hca (le_trans hua ht0), le_refl _⟩
        · simp only [if_neg hk] at hk2
          obtain ⟨h1, h2⟩ := h k v2 ctx2 hk2
          exact ⟨h1, le_trans h2 ht0⟩
      | none =>
        rw [hr] at hk2
        obtain ⟨h1, h2⟩ := h k v2 ctx2 hk2
        exact ⟨h1, le_trans h2 ht0⟩
  · intro k v ctx v2 ctx2 hk hk2
    cases hc : c.store key with
    | none =>
      rw [execute_with_option_miss c key f fdur opt t0 hc] at hk2
      by_cases hk1 : k = key
      · subst hk1
        rw [hc] at hk
        exact absurd hk (by simp)
      · simp only [if_neg hk1] at hk2
        rw [hk] at hk2
        obtain ⟨-, hctx⟩ := Prod.mk.injEq .. |>.mp (Option.some_inj.mp hk2)
        rw [← hctx]
    | some item =>
      obtain ⟨v1, ctx1⟩ := item
      rw [execute_with_option_hit c key f fdur opt t0 v1 ctx1 hc] at hk2
      cases hr : runPolicies key f t0 (t0 + fdur) v1 ctx1
          ctx1.option.policies with
      | some entry =>
        rw [hr] at hk2
        have hshape := runPolicies_some_shape key f t0 (t0 + fdur) v1 ctx1
          ctx1.option.policies entry hr
        by_cases hk1 : k = key
        · subst hk1
          rw [hc] at hk
          obtain ⟨-, hctx1⟩ := Prod.mk.injEq .. |>.mp (Option.some_inj.mp hk)
          simp only [if_pos rfl, hshape] at hk2
          obtain ⟨-, hctx2⟩ := Prod.mk.injEq .. |>.mp (Option.some_inj.mp hk2)
          rw [← hctx2, ← hctx1]
        · simp only [if_neg hk1] at hk2
          rw [hk] at hk2
          obtain ⟨-, hctx⟩ := Prod.mk.injEq .. |>.mp (Option.some_inj.mp hk2)
          rw [← hctx]
      | none =>
        rw [hr] at hk2
        rw [hk] at hk2
        obtain ⟨-, hctx⟩ := Prod.mk.injEq .. |>.mp (Option.some_inj.mp hk2)
        rw [← hctx]
  · intro t k v ctx hk
    exact absurd hk (by simp [CacheUp.new])

/-- C8 witness: `storeFT` is wellformed at clock 5, and the theorem yields
wellformedness of the store left by an access on key 1 at clock `5 + 0`. -/
theorem timestamps_invariant_witness :
    timesOk ((storeFT.execute_with_option 1 prodTen 0 (CacheOption.new Nat Nat)
      5).2.1) (5 + 0) := by
  refine (timestamps_invariant storeFT 1 prodTen 0 (CacheOption.new Nat Nat) 5
    ?_ (by decide)).1
  intro k v ctx hk
  by_cases h1 : k = 1
  · subst h1
    simp only [storeFT, if_pos rfl] at hk
    obtain ⟨-, hctx⟩ := Prod.mk.injEq .. |>.mp (Option.some_inj.mp hk)
    rw [← hctx]
    refine ⟨le_refl _, by norm_num [ctxFT]⟩
  · simp [storeFT, h1] at hk

end CacheUpSpec
